import Mathlib

/-!
Verification of the `num.NlSolver` nonlinear-equation solver of the gosl
repository (file `nls.go`, given as `src/unnamed/part_000`), against its
natural-language specification.

The Go code is shallowly embedded: IEEE-754 float64 values are modelled as
exact fractions (`Fr`, an unreduced `Int` numerator/denominator pair, kept
with a nonnegative denominator), vectors as `List Fr`, the sparse triplet
as a coordinate list, and the mutable `NlSolver` object as a record threaded
through pure functions.  The external linear-algebra backend (dense matrix
inversion and the Umfpack sparse factorize/solve pair) is, as in the spec,
an external capability and is passed in as a `LinSolveCap` record; calls to
it are counted in the ghost field `NFact`.  Two further ghost fields help
state frame properties: `trace` records the `Ldx` norms at the point where
the Go code assigns `LdxPrev`.  Division by a zero value yields a fraction
with denominator 0, which no comparison treats as smaller than anything; the
concrete runs below never divide by zero.
-/

/-- Exact fraction modelling a float64 value as an ideal real number.
`d` is kept nonnegative by the smart constructors; fractions are not
reduced, so all operations evaluate by kernel reduction. -/
structure Fr where
  n : Int
  d : Int
deriving DecidableEq, Repr

/-- Build a fraction, normalising the sign into the numerator. -/
def fr (n d : Int) : Fr := if d < 0 then ⟨-n, -d⟩ else ⟨n, d⟩

def Fr.add (a b : Fr) : Fr := ⟨a.n * b.d + b.n * a.d, a.d * b.d⟩

def Fr.sub (a b : Fr) : Fr := ⟨a.n * b.d - b.n * a.d, a.d * b.d⟩

def Fr.mul (a b : Fr) : Fr := ⟨a.n * b.n, a.d * b.d⟩

def Fr.div (a b : Fr) : Fr := fr (a.n * b.d) (a.d * b.n)

def Fr.neg (a : Fr) : Fr := ⟨-a.n, a.d⟩

instance : Add Fr := ⟨Fr.add⟩
instance : Sub Fr := ⟨Fr.sub⟩
instance : Mul Fr := ⟨Fr.mul⟩
instance : Div Fr := ⟨Fr.div⟩
instance : Neg Fr := ⟨Fr.neg⟩

/-- Value ("cross-multiplication") order on fractions. -/
def Fr.lt (a b : Fr) : Prop := a.n * b.d < b.n * a.d

instance : LT Fr := ⟨Fr.lt⟩

instance (a b : Fr) : Decidable (a < b) := by
  unfold LT.lt instLTFr Fr.lt; infer_instance

/-- Model of Go `math.Abs`. -/
def Fr.abs (a : Fr) : Fr := ⟨if a.n < 0 then -a.n else a.n, a.d⟩

/-- Model of `utl.Max` (`if a > b { return a }; return b`). -/
def Fr.max (a b : Fr) : Fr := if b < a then a else b

/-- Model of `utl.Min` (`if a < b { return a }; return b`). -/
def Fr.min (a b : Fr) : Fr := if a < b then a else b

/-- Bit length of a natural number, driven by an explicit fuel so that the
kernel can evaluate it. -/
def bitsOf : Nat → Nat → Nat
  | 0, _ => 0
  | f+1, m => if m = 0 then 0 else 1 + bitsOf f (m / 2)

/-- Integer square root by descending bit probing (largest `r` with
`r * r ≤ m`), structurally recursive so the kernel can evaluate it. -/
def isqrtGo (m : Nat) : Nat → Nat → Nat
  | 0, acc => acc
  | b+1, acc =>
      let c := acc + 2 ^ b
      if c * c ≤ m then isqrtGo m b c else isqrtGo m b acc

def isqrt (m : Nat) : Nat := isqrtGo m (bitsOf m m) 0

/-- Model of Go `math.Sqrt` on the exact-fraction reals.  It is exact
whenever numerator and denominator are perfect squares, which is the only
regime the concrete runs below exercise (sums of one squared fraction). -/
def Fr.sqrt (a : Fr) : Fr := ⟨(isqrt a.n.toNat : Int), (isqrt a.d.toNat : Int)⟩

/-- Go `int(v)` truncation of a float64 parameter value. -/
def frToInt (v : Fr) : Int := v.n.tdiv v.d

/-- Model of `num.MACHEPS`, the float64 machine epsilon `2⁻⁵²`. -/
def MACHEPS : Fr := fr 1 4503599627370496

/-- A vector of float64 values (`la.Vector`). -/
abbrev Vec := List Fr

/-- A dense matrix (`la.Matrix`). -/
abbrev Mat := List (List Fr)

/-- A sparse coordinate-list matrix (`la.Triplet`); duplicate entries at the
same coordinates accumulate. -/
abbrev Triplet := List (Nat × Nat × Fr)

def vecGet (v : Vec) (i : Nat) : Fr := v.getD i (fr 0 1)

def matGet (m : Mat) (i j : Nat) : Fr := (m.getD i []).getD j (fr 0 1)

/-- Dot product of two vectors. -/
def dotVV (u v : Vec) : Fr := (List.zipWith Fr.mul u v).foldl Fr.add (fr 0 1)

/-- Model of `la.Vector.Largest(den)`: the largest `|uᵢ|/den`. -/
def largest (v : Vec) (den : Fr) : Fr :=
  v.foldl (fun acc a => if acc < (Fr.abs a) / den then (Fr.abs a) / den else acc) (fr 0 1)

/-- `x - dx` componentwise (the Newton update `x[i] -= mdx[i]`). -/
def updX (x dx : Vec) : Vec := List.zipWith Fr.sub x dx

/-- The accumulated `Σᵢ (vᵢ/scalᵢ)²` of the Go update loop. -/
def scaledSq (scal v : Vec) : Fr :=
  (List.zipWith (fun m s => (m / s) * (m / s)) v scal).foldl Fr.add (fr 0 1)

/-- Model of `la.SpTriMatTrVecMul`: `(dφdx)ⱼ = Σ_{(i,j,v)∈t} v·fxᵢ`. -/
def spTrMulVec (t : Triplet) (fx : Vec) (nn : Nat) : Vec :=
  (List.range nn).map fun j =>
    (t.filter (fun e => e.2.1 == j)).foldl (fun acc e => acc + e.2.2 * vecGet fx e.1) (fr 0 1)

/-- The mutable `NlSolver` object of `num/nls.go`, together with the two
ghost observation fields `NFact` (number of calls to the linear-solver
factorisation, i.e. `la.MatInv`/`lis.Fact`) and `trace` (the `Ldx` values at
the points where the Go loop assigns `LdxPrev`). -/
structure NlSolver where
  cteJac : Bool := false
  linSearch : Bool := false
  linSchMaxIt : Int := 20
  maxIt : Int := 20
  chkConv : Bool := false
  atol : Fr := fr 0 1
  rtol : Fr := fr 0 1
  ftol : Fr := fr 0 1
  fnewt : Fr := fr 0 1
  neq : Nat := 0
  scal : Vec := []
  fx : Vec := []
  mdx : Vec := []
  useDn : Bool := false
  numJ : Bool := false
  Ffcn : Vec → Vec := fun v => v
  JfcnSp : Option (Vec → Triplet) := none
  JfcnDn : Option (Vec → Mat) := none
  Jtri : Triplet := []
  lsReady : Bool := false
  factTri : Triplet := []
  J : Mat := []
  Ji : Mat := []
  φ : Fr := fr 0 1
  dφdx : Vec := []
  x0 : Vec := []
  It : Int := 0
  NFeval : Int := 0
  NJeval : Int := 0
  NFact : Nat := 0
  trace : List Fr := []

/-- `NlSolver.SetTols`: store the tolerances and derive the Newton
tolerance `fnewt = max(10·ε/rtol, min(0.03, sqrt(rtol)))`. -/
def NlSolver.SetTols (o : NlSolver) (Atol Rtol Ftol ϵ : Fr) : NlSolver :=
  { o with atol := Atol, rtol := Rtol, ftol := Ftol,
           fnewt := Fr.max ((fr 10 1) * ϵ / Rtol) (Fr.min (fr 3 100) (Fr.sqrt Rtol)) }

/-- The control parameters read by `NlSolver.Init` from the `prms` map. -/
structure Prms where
  cteJac : Bool := false
  linSearch : Bool := false
  linSchMaxIt : Int := 20
  maxIt : Int := 20
  chkConv : Bool := false
  atol : Fr := fr 1 100000000
  rtol : Fr := fr 1 100000000
  ftol : Fr := fr 1 1000000000

/-- The option names accepted by `NlSolver.Init`. -/
def acceptedKeys : List String :=
  ["cteJac", "linSearch", "linSchMaxIt", "maxIt", "chkConv", "atol", "rtol", "ftol"]

/-- One arm of the `switch k` in `NlSolver.Init`; an unknown key is a
configuration error (`chk.Panic`). -/
def readOne (p : Prms) (k : String) (v : Fr) : Except String Prms :=
  if k = "cteJac" then .ok { p with cteJac := fr 0 1 < v }
  else if k = "linSearch" then .ok { p with linSearch := fr 0 1 < v }
  else if k = "linSchMaxIt" then .ok { p with linSchMaxIt := frToInt v }
  else if k = "maxIt" then .ok { p with maxIt := frToInt v }
  else if k = "chkConv" then .ok { p with chkConv := fr 0 1 < v }
  else if k = "atol" then .ok { p with atol := v }
  else if k = "rtol" then .ok { p with rtol := v }
  else if k = "ftol" then .ok { p with ftol := v }
  else .error ("parameter named " ++ k ++ " is invalid")

/-- The `for k, v := range prms` loop of `NlSolver.Init` (the Go map is
modelled as an association list; map iteration order is unspecified in Go,
and the properties proved below hold for every order). -/
def readPrms (p : Prms) : List (String × Fr) → Except String Prms
  | [] => .ok p
  | (k, v) :: rest =>
      match readOne p k v with
      | .ok p' => readPrms p' rest
      | .error e => .error e

/-- `NlSolver.Init`: defaults, parameter parsing (unknown keys panic, which
is modelled as `Except.error`), tolerance derivation, workspace allocation,
and the numerical-Jacobian fallback flag (`JfcnSp == nil` forces `numJ`). -/
def NlSolver.init (neq : Nat) (Ffcn : Vec → Vec) (JfcnSp : Option (Vec → Triplet))
    (JfcnDn : Option (Vec → Mat)) (useDn numJ : Bool) (prms : List (String × Fr)) :
    Except String NlSolver :=
  match readPrms {} prms with
  | .error e => .error e
  | .ok p =>
      let numJ' := if useDn then numJ else (numJ || JfcnSp.isNone)
      let o : NlSolver :=
        { cteJac := p.cteJac, linSearch := p.linSearch, linSchMaxIt := p.linSchMaxIt,
          maxIt := p.maxIt, chkConv := p.chkConv,
          neq := neq, scal := List.replicate neq (fr 0 1),
          fx := List.replicate neq (fr 0 1), mdx := List.replicate neq (fr 0 1),
          Ffcn := Ffcn, JfcnSp := JfcnSp, JfcnDn := JfcnDn,
          useDn := useDn, numJ := numJ',
          dφdx := List.replicate neq (fr 0 1), x0 := List.replicate neq (fr 0 1) }
      .ok (o.SetTols p.atol p.rtol p.ftol MACHEPS)

/-- Modelled from the spec: the finite-difference Jacobian routine
`num.Jacobian` is not under `src/`; §4.1 describes it as one-sided finite
differences "using the already-evaluated residual at the base point".  The
spec does not fix the step size; it is taken here as `sqrt(MACHEPS)`.
`J[i][j] ≈ (fᵢ(x + h·eⱼ) - fxᵢ)/h` with `fx` the residual at `x`. -/
def jacobianFD (Ffcn : Vec → Vec) (x fx : Vec) : Triplet :=
  let h := Fr.sqrt MACHEPS
  (List.range x.length).flatMap fun j =>
    let xj := x.set j (vecGet x j + h)
    let fj := Ffcn xj
    (List.range fx.length).map fun i => (i, j, (vecGet fj i - vecGet fx i) / h)

/-- Modelled from the spec: the 1-D line search `num.LineSearch` is not
under `src/`; §4.1 describes it as a bounded backtracking search along the
Newton direction minimising `φ(x) = ½‖f(x)‖²`.  Modelled as trials
`λ = 2⁻ᵗ`, stopping when `φ` drops below its base value; returns the new
`x`, the new `f(x)` and the number of function evaluations spent. -/
def lsStep (x0 mdx : Vec) (lam : Fr) : Vec :=
  List.zipWith (fun a dx => a - lam * dx) x0 mdx

def lsGo (f : Vec → Vec) (x0 mdx : Vec) (φ0 lam : Fr) : Nat → Vec × Vec × Int
  | 0 => (lsStep x0 mdx lam, f (lsStep x0 mdx lam), 1)
  | fuel+1 =>
      if (fr 1 2) * dotVV (f (lsStep x0 mdx lam)) (f (lsStep x0 mdx lam)) < φ0 then
        (lsStep x0 mdx lam, f (lsStep x0 mdx lam), 1)
      else
        ((lsGo f x0 mdx φ0 (lam * fr 1 2) fuel).1,
         (lsGo f x0 mdx φ0 (lam * fr 1 2) fuel).2.1,
         (lsGo f x0 mdx φ0 (lam * fr 1 2) fuel).2.2 + 1)

def lineSearchModel (f : Vec → Vec) (x0 mdx _dφdx : Vec) (φ0 : Fr) (maxIt : Int) :
    Vec × Vec × Int :=
  lsGo f x0 mdx φ0 (fr 1 1) maxIt.toNat

/-- The external linear-solve capability (spec §2: "Linear System
Capability (external contract)"): dense matrix inversion (`la.MatInv`) and
the sparse factorize-and-solve of `la.Umfpack` (the factorised matrix is
the triplet stored by `Fact`, modelled in the field `factTri`). -/
structure LinSolveCap where
  matInv : Mat → Mat
  spSolve : Triplet → Vec → Vec

/-- Reasons for leaving the Newton loop (the `break` labels of the Go
code: `fxMax(ini)`, `fxMax`, `Ldx`, `Ldx(linsrch)`). -/
inductive BreakReason
  | fxMaxIni | fxMax | ldx | ldxLS
deriving DecidableEq, Repr

/-- The fatal errors (`chk.Panic`) that `NlSolver.Solve` can raise, and the
nil-callback dereference that calling a missing Jacobian would be. -/
inductive NlsError
  | diverging (θ L p : Fr)
  | noConvergence (it : Int)
  | nilJacobian
deriving DecidableEq, Repr

/-- `Solve` lines 272-285: evaluate the Jacobian at `x` unless this is a
later iteration of the modified-Newton (`cteJac`) mode. -/
def evalJac (o : NlSolver) (x : Vec) : Except NlsError NlSolver :=
  if o.It = 0 ∨ o.cteJac = false then
    if o.useDn then
      match o.JfcnDn with
      | some jf => .ok { o with J := jf x, NJeval := o.NJeval + 1 }
      | none => .error .nilJacobian
    else if o.numJ then
      .ok { o with Jtri := jacobianFD o.Ffcn x o.fx,
                   NFeval := o.NFeval + (o.neq : Int), NJeval := o.NJeval + 1 }
    else
      match o.JfcnSp with
      | some jf => .ok { o with Jtri := jf x, NJeval := o.NJeval + 1 }
      | none => .error .nilJacobian
  else .ok o

/-- `Solve` lines 287-326: dense branch (invert the Jacobian, form `mdx`
and the line-search data) or sparse branch (factorise — "must be done for
all iterations" — then solve for `mdx`).  Each factorisation/inversion is
counted in the ghost field `NFact`. -/
def linStage (cap : LinSolveCap) (o : NlSolver) : NlSolver :=
  if o.useDn then
    let Ji := cap.matInv o.J
    let mdx := (List.range o.neq).map fun i =>
      (List.range o.neq).foldl (fun acc j => acc + matGet Ji i j * vecGet o.fx j) (fr 0 1)
    let dφdx := (List.range o.neq).map fun i =>
      (List.range o.neq).foldl (fun acc j => acc + matGet o.J j i * vecGet o.fx j) (fr 0 1)
    { o with Ji := Ji, mdx := mdx, dφdx := dφdx,
             φ := (fr 1 2) * dotVV o.fx o.fx, NFact := o.NFact + 1 }
  else
    { o with lsReady := true, factTri := o.Jtri, NFact := o.NFact + 1,
             mdx := cap.spSolve o.Jtri o.fx,
             φ := if o.linSearch then (fr 1 2) * dotVV o.fx o.fx else o.φ,
             dφdx := if o.linSearch then spTrMulVec o.Jtri o.fx o.neq else o.dφdx }

/-- The scaled RMS norm `Ldx = sqrt((Σᵢ (vᵢ/scalᵢ)²)/neq)` (lines 329-335
and 362-366). -/
def ldxNorm (o : NlSolver) (v : Vec) : Fr :=
  Fr.sqrt (scaledSq o.scal v / fr (o.neq : Int) 1)

/-- `Solve` lines 287-339: linear stage, update `x` (recording `x0`),
compute `Ldx`, and re-evaluate the residual at the new `x`. -/
def afterUpdate (cap : LinSolveCap) (o1 : NlSolver) (x : Vec) : NlSolver × Vec × Fr :=
  ({ linStage cap o1 with
      x0 := x,
      fx := (linStage cap o1).Ffcn (updX x (linStage cap o1).mdx),
      NFeval := (linStage cap o1).NFeval + 1 },
   updX x (linStage cap o1).mdx,
   ldxNorm (linStage cap o1) (linStage cap o1).mdx)

/-- Outcome of one iteration of the Newton loop. -/
inductive IterOut
  | brk (r : BreakReason) (o : NlSolver) (x : Vec)
  | fatal (e : NlsError) (o : NlSolver) (x : Vec)
  | cont (o : NlSolver) (x : Vec) (ldx : Fr)

/-- `Solve` lines 376-383: record `Ldx` (ghost trace at the `LdxPrev`
assignment site) and, when convergence checking is on and this is not the
first iteration, raise the fatal divergence panic if `Θ = Ldx/LdxPrev`
exceeds `0.99`. -/
def rateCheck (o : NlSolver) (x : Vec) (L p : Fr) : IterOut :=
  let oT := { o with trace := o.trace ++ [L] }
  if 0 < o.It ∧ o.chkConv = true then
    if fr 99 100 < L / p then .fatal (.diverging (L / p) L p) oT x
    else .cont oT x L
  else .cont oT x L

/-- `Solve` lines 358-374: after the line search replaced `x` and `fx`,
recompute `Ldx` from `x - x0`, optionally break, else fall through to the
rate check. -/
def lsBranch (o2 : NlSolver) (xn fxn : Vec) (nfv : Int) (ldxPrev : Fr) : IterOut :=
  if ldxNorm { o2 with fx := fxn, NFeval := o2.NFeval + nfv }
       (List.zipWith Fr.sub xn o2.x0) < o2.fnewt then
    IterOut.brk BreakReason.ldxLS { o2 with fx := fxn, NFeval := o2.NFeval + nfv } xn
  else
    rateCheck { o2 with fx := fxn, NFeval := o2.NFeval + nfv } xn
      (ldxNorm { o2 with fx := fxn, NFeval := o2.NFeval + nfv }
        (List.zipWith Fr.sub xn o2.x0))
      ldxPrev

/-- One iteration of the `for o.It` loop of `NlSolver.Solve` (lines
251-384): residual convergence check, Jacobian evaluation, linear solve,
update, post-update convergence checks, optional line search, and the
convergence-rate check. -/
def solveIter (cap : LinSolveCap) (o : NlSolver) (x : Vec) (ldxPrev : Fr) : IterOut :=
  if largest o.fx (fr 1 1) < o.ftol then .brk .fxMaxIni o x
  else
    match evalJac o x with
    | .error e => .fatal e o x
    | .ok o1 =>
      match afterUpdate cap o1 x with
      | (o2, x', L) =>
        if largest o2.fx (fr 1 1) < o2.ftol then .brk .fxMax o2 x'
        else if L < o2.fnewt then .brk .ldx o2 x'
        else if o2.linSearch then
          match lineSearchModel o2.Ffcn o2.x0 o2.mdx o2.dφdx o2.φ o2.linSchMaxIt with
          | (xn, fxn, nfv) => lsBranch o2 xn fxn nfv ldxPrev
        else rateCheck o2 x' L ldxPrev

/-- Outcome of the whole Newton loop. -/
inductive LoopOut
  | broke (r : BreakReason) (o : NlSolver) (x : Vec)
  | failed (e : NlsError) (o : NlSolver) (x : Vec)
  | ran (o : NlSolver) (x : Vec)

/-- The `for o.It = 0; o.It < o.maxIt; o.It++` loop: the fuel is the
number of remaining iterations and `It` is incremented on every completed
(non-breaking) iteration. -/
def solveLoop (cap : LinSolveCap) : Nat → NlSolver → Vec → Fr → LoopOut
  | 0, o, x, _ => .ran o x
  | fuel+1, o, x, p =>
      match solveIter cap o x p with
      | .brk r o' x' => .broke r o' x'
      | .fatal e o' x' => .failed e o' x'
      | .cont o' x' L => solveLoop cap fuel { o' with It := o'.It + 1 } x' L

/-- `Solve` entry (lines 233-240): compute the scaling vector
`scal = atol + rtol·|x|`, evaluate the residual at the initial `x`, and
reset the statistics (`NFeval = 1`, `NJeval = 0`; ghost fields also reset). -/
def solveEntry (o : NlSolver) (x : Vec) : NlSolver :=
  { o with scal := x.map (fun xi => o.atol + o.rtol * Fr.abs xi),
           fx := o.Ffcn x, NFeval := 1, NJeval := 0, It := 0,
           NFact := 0, trace := [] }

/-- Result of `NlSolver.Solve`: normal return (with the break reason, if
any) or one of the fatal panics. -/
inductive SolveResult
  | ok (r : Option BreakReason) (o : NlSolver) (x : Vec)
  | err (e : NlsError) (o : NlSolver) (x : Vec)

/-- `NlSolver.Solve` (lines 233-396): entry, Newton loop, and the final
`o.It == o.maxIt` exhaustion panic ("cannot converge after %d
iterations"). -/
def NlSolver.solve (cap : LinSolveCap) (o : NlSolver) (x : Vec) : SolveResult :=
  match solveLoop cap ((solveEntry o x).maxIt).toNat (solveEntry o x) x (fr 0 1) with
  | .broke r o' x' => .ok (some r) o' x'
  | .failed e o' x' => .err e o' x'
  | .ran o' x' =>
      if o'.It = o'.maxIt then .err (.noConvergence o'.It) o' x'
      else .ok none o' x'

def LoopOut.solver : LoopOut → NlSolver
  | .broke _ o _ => o
  | .failed _ o _ => o
  | .ran o _ => o

def SolveResult.finalSolver : SolveResult → NlSolver
  | .ok _ o _ => o
  | .err _ o _ => o

def SolveResult.finalX : SolveResult → Vec
  | .ok _ _ x => x
  | .err _ _ x => x

def SolveResult.isOkB : SolveResult → Bool
  | .ok _ _ _ => true
  | .err _ _ _ => false

def SolveResult.isDivergedB : SolveResult → Bool
  | .err (.diverging _ _ _) _ _ => true
  | _ => false

/-- When the result is the divergence panic, check that the reported ratio
is the quotient of the two reported norms and exceeds `0.99`. -/
def divergedPayloadB : SolveResult → Bool
  | .err (.diverging θ L p) _ _ => decide (θ = L / p ∧ fr 99 100 < θ)
  | _ => false

/-- Whether some consecutive pair of recorded `Ldx` norms has ratio
exceeding `0.99`. -/
def divPairB : List Fr → Bool
  | a :: b :: rest => decide (fr 99 100 < b / a) || divPairB (b :: rest)
  | _ => false

/-- The configuration and frame fields of `NlSolver` that one Newton
iteration never modifies, collected for frame lemmas. -/
structure Cfg where
  maxIt : Int
  chkConv : Bool
  scal : Vec
  cteJac : Bool
  linSearch : Bool
  ftol : Fr
  fnewt : Fr
  useDn : Bool
  neq : Nat

def NlSolver.cfg (o : NlSolver) : Cfg :=
  ⟨o.maxIt, o.chkConv, o.scal, o.cteJac, o.linSearch, o.ftol, o.fnewt, o.useDn, o.neq⟩

def LoopOut.xvec : LoopOut → Vec
  | .broke _ _ x => x
  | .failed _ _ x => x
  | .ran _ x => x

/-- The rate-check soundness predicate for loop outcomes: either the loop
stopped with the divergence panic (whose payload is a ratio exceeding
`0.99` together with the two norms it divides), or no two consecutive
recorded norms have ratio above `0.99`. -/
def rateOK : LoopOut → Prop
  | .failed (.diverging θ L q) _ _ => θ = L / q ∧ fr 99 100 < θ
  | .failed _ o _ => divPairB o.trace = false
  | .broke _ o _ => divPairB o.trace = false
  | .ran o _ => divPairB o.trace = false

def isErrB {α β : Type} : Except α β → Bool
  | .error _ => true
  | .ok _ => false

def exceptGet (e : Except String NlSolver) : NlSolver :=
  match e with
  | .ok o => o
  | .error _ => {}

def exceptGetN (d : NlSolver) : Except NlsError NlSolver → NlSolver
  | .ok o => o
  | .error _ => d

/- Concrete problem instances used to witness the theorems below.  The
linear-solve capabilities are chosen so that every number appearing in a
run is a fraction whose numerator and denominator are perfect squares
whenever its square root is taken, making `Fr.sqrt` exact. -/

/-- Identity dense "inversion" (the dense Jacobians below are identity). -/
def capId : LinSolveCap := { matInv := fun m => m, spSolve := fun _ v => v }

/-- Sparse capability solving the 1×1 system with matrix value `2`. -/
def capHalf : LinSolveCap :=
  { matInv := fun m => m, spSolve := fun _ v => v.map (fun a => a / fr 2 1) }

/-- C2 witness: constant residual `1`, identity Jacobian, `atol = 100`,
`rtol = 1/4`; the first increment has `Ldx = 1/100 < fnewt = 0.03`. -/
def oW2base : NlSolver := exceptGet (NlSolver.init 1 (fun _ => [fr 1 1]) none
  (some (fun _ => [[fr 1 1]])) true false [("atol", fr 100 1), ("rtol", fr 1 4)])

def xW2 : Vec := [fr 0 1]

def oW2 : NlSolver := solveEntry oW2base xW2

def o1W2 : NlSolver := exceptGetN oW2 (evalJac oW2 xW2)

def tW2 : NlSolver × Vec × Fr := afterUpdate capId o1W2 xW2

def o2W2 : NlSolver := tW2.1

def xpW2 : Vec := tW2.2.1

def LW2 : Fr := tW2.2.2

/-- C3 counterexample run: sparse mode, `cteJac` (modified Newton) on,
analytic 1×1 Jacobian `2`, `ftol = 0.3`; converges at the second
iteration, factorising twice but evaluating the Jacobian once. -/
def oC3 : NlSolver := exceptGet (NlSolver.init 1 (fun v => v)
  (some (fun _ => [(0, 0, fr 2 1)])) none false false
  [("cteJac", fr 1 1), ("ftol", fr 3 10)])

def resC3 : SolveResult := NlSolver.solve capHalf oC3 [fr 1 1]

/-- C3 amended-claim witness state: modified-Newton mode at a later
iteration. -/
def oA3 : NlSolver := { cteJac := true, It := 1 }

/-- C3 amended-claim witness run: the counterexample's solver again (its
`NJeval` stays at `1`). -/
def oB3 : NlSolver := oC3

/-- C4 witness: dense mode, constant residual `1`, identity Jacobian,
`chkConv` on; the increments have constant norm, so `Θ = 1 > 0.99` at the
second iteration and the divergence panic fires. -/
def oW4 : NlSolver := exceptGet (NlSolver.init 1 (fun _ => [fr 1 1]) none
  (some (fun _ => [[fr 1 1]])) true false [("chkConv", fr 1 1)])

def xW4 : Vec := [fr 0 1]

/-- C4 counterexample run: same diverging iteration (`Θ = 1 > 0.99` between
the two recorded norms) but `chkConv` left at its default `false` and
`maxIt = 2`: the run ends in the exhaustion error, not the divergence
panic. -/
def oCex4 : NlSolver := exceptGet (NlSolver.init 1 (fun _ => [fr 1 1]) none
  (some (fun _ => [[fr 1 1]])) true false [("maxIt", fr 2 1)])

def resCex4 : SolveResult := NlSolver.solve capId oCex4 [fr 0 1]

/-- C6 witness: constant residual `1`, `maxIt = 2`; no convergence test can
ever pass, so the loop exhausts its two iterations. -/
def oW6 : NlSolver := exceptGet (NlSolver.init 1 (fun _ => [fr 1 1]) none
  (some (fun _ => [[fr 1 1]])) true false [("maxIt", fr 2 1)])

def xW6 : Vec := [fr 0 1]

def loopW6 : LoopOut :=
  solveLoop capId ((solveEntry oW6 xW6).maxIt).toNat (solveEntry oW6 xW6) xW6 (fr 0 1)

def oW6' : NlSolver := loopW6.solver

def xW6' : Vec := loopW6.xvec

/-- C7 witness: sparse mode with no analytic Jacobian callback. -/
def oW7 : NlSolver := exceptGet (NlSolver.init 1 (fun v => v) none none false false [])

/-- C9 witness: residual `f(x) = x` with initial guess `0`, already below
`ftol`. -/
def oW9 : NlSolver := exceptGet (NlSolver.init 1 (fun v => v) none
  (some (fun _ => [[fr 1 1]])) true false [])

def xW9 : Vec := [fr 0 1]


/-! ### Frame and case-analysis lemmas for one Newton iteration -/

theorem cfg_maxIt {o o' : NlSolver} (h : o'.cfg = o.cfg) : o'.maxIt = o.maxIt :=
  congrArg Cfg.maxIt h

theorem cfg_chkConv {o o' : NlSolver} (h : o'.cfg = o.cfg) : o'.chkConv = o.chkConv :=
  congrArg Cfg.chkConv h

theorem cfg_scal {o o' : NlSolver} (h : o'.cfg = o.cfg) : o'.scal = o.scal :=
  congrArg Cfg.scal h

theorem cfg_cteJac {o o' : NlSolver} (h : o'.cfg = o.cfg) : o'.cteJac = o.cteJac :=
  congrArg Cfg.cteJac h

/-- `evalJac` never touches the configuration, the iteration counter, the
ghost fields, nor decreases `NFeval`; it increments `NJeval` by at most one;
and in modified-Newton mode past the first iteration it is the identity. -/
theorem evalJac_ok {o o1 : NlSolver} {x : Vec} (h : evalJac o x = Except.ok o1) :
    o1.cfg = o.cfg ∧ o1.It = o.It ∧ o1.trace = o.trace ∧ o1.NFact = o.NFact ∧
    o.NFeval ≤ o1.NFeval ∧ o1.NJeval ≤ o.NJeval + 1 ∧
    (0 < o.It → o.cteJac = true → o1 = o) := by
  unfold evalJac at h
  split at h
  case isFalse hc =>
    cases h
    exact ⟨rfl, rfl, rfl, rfl, le_refl _, by omega, fun _ _ => rfl⟩
  case isTrue hc =>
    have hskip : 0 < o.It → o.cteJac = true → o1 = o := by
      intro hi hcte
      rcases hc with h' | h'
      · omega
      · rw [hcte] at h'; cases h'
    split at h
    · cases hD : o.JfcnDn with
      | none => rw [hD] at h; cases h
      | some jf =>
          rw [hD] at h; cases h
          exact ⟨rfl, rfl, rfl, rfl, le_refl _, le_refl _, hskip⟩
    · split at h
      · cases h
        exact ⟨rfl, rfl, rfl, rfl, le_add_of_nonneg_right (Int.natCast_nonneg _),
               le_refl _, hskip⟩
      · cases hS : o.JfcnSp with
        | none => rw [hS] at h; cases h
        | some jf =>
            rw [hS] at h; cases h
            exact ⟨rfl, rfl, rfl, rfl, le_refl _, le_refl _, hskip⟩

/-- `evalJac` can only fail with the nil-Jacobian error. -/
theorem evalJac_error {o : NlSolver} {x : Vec} {e : NlsError}
    (h : evalJac o x = Except.error e) : e = NlsError.nilJacobian := by
  unfold evalJac at h
  split at h
  · split at h
    · cases hD : o.JfcnDn with
      | none => rw [hD] at h; cases h; rfl
      | some jf => rw [hD] at h; cases h
    · split at h
      · cases h
      · cases hS : o.JfcnSp with
        | none => rw [hS] at h; cases h; rfl
        | some jf => rw [hS] at h; cases h
  · cases h

/-- The linear stage performs exactly one factorisation and changes nothing
else that the surrounding loop observes. -/
theorem linStage_eq (cap : LinSolveCap) (o : NlSolver) :
    (linStage cap o).cfg = o.cfg ∧ (linStage cap o).It = o.It ∧
    (linStage cap o).trace = o.trace ∧ (linStage cap o).NFeval = o.NFeval ∧
    (linStage cap o).NJeval = o.NJeval ∧ (linStage cap o).NFact = o.NFact + 1 := by
  unfold linStage
  split
  · exact ⟨rfl, rfl, rfl, rfl, rfl, rfl⟩
  · exact ⟨rfl, rfl, rfl, rfl, rfl, rfl⟩

/-- `afterUpdate` frame facts: one factorisation, one function evaluation,
and the returned norm is the scaled RMS norm of the increment. -/
theorem afterUpdate_eq {cap : LinSolveCap} {o1 o2 : NlSolver} {x x' : Vec} {L : Fr}
    (h : afterUpdate cap o1 x = (o2, x', L)) :
    o2.cfg = o1.cfg ∧ o2.It = o1.It ∧ o2.trace = o1.trace ∧
    o2.NFeval = o1.NFeval + 1 ∧ o2.NJeval = o1.NJeval ∧ o2.NFact = o1.NFact + 1 ∧
    L = Fr.sqrt (scaledSq o2.scal o2.mdx / fr (o2.neq : Int) 1) := by
  unfold afterUpdate at h
  injection h with h1 h23
  injection h23 with h2 h3
  subst h1 h2 h3
  obtain ⟨hc, hi, ht, hf, hj, hn⟩ := linStage_eq cap o1
  refine ⟨hc, hi, ht, ?_, hj, ?_, rfl⟩
  · show (linStage cap o1).NFeval + 1 = o1.NFeval + 1
    rw [hf]
  · show (linStage cap o1).NFact = o1.NFact + 1
    exact hn

/-- The number of function evaluations reported by the line-search model is
at least one. -/
theorem lsGo_pos (f : Vec → Vec) (x0 mdx : Vec) (φ0 : Fr) :
    ∀ (fuel : Nat) (lam : Fr), 1 ≤ (lsGo f x0 mdx φ0 lam fuel).2.2 := by
  intro fuel
  induction fuel with
  | zero => intro lam; exact le_refl _
  | succ n ih =>
      intro lam
      unfold lsGo
      split
      · exact le_refl _
      · have := ih (lam * fr 1 2)
        show 1 ≤ (lsGo f x0 mdx φ0 (lam * fr 1 2) n).2.2 + 1
        omega

theorem lineSearchModel_pos (f : Vec → Vec) (x0 mdx d : Vec) (φ0 : Fr) (m : Int) :
    1 ≤ (lineSearchModel f x0 mdx d φ0 m).2.2 :=
  lsGo_pos f x0 mdx φ0 m.toNat (fr 1 1)

/-- Case analysis of the rate check: either the divergence panic with a
consistent payload, or continuation with the recorded norm appended. -/
theorem rateCheck_cases (o : NlSolver) (x : Vec) (L p : Fr) :
    (rateCheck o x L p = IterOut.fatal (NlsError.diverging (L / p) L p)
        { o with trace := o.trace ++ [L] } x ∧ fr 99 100 < L / p) ∨
    (rateCheck o x L p = IterOut.cont { o with trace := o.trace ++ [L] } x L ∧
        (0 < o.It → o.chkConv = true → ¬ fr 99 100 < L / p)) := by
  unfold rateCheck
  split
  case isTrue hc =>
    split
    case isTrue hg => exact Or.inl ⟨rfl, hg⟩
    case isFalse hg => exact Or.inr ⟨rfl, fun _ _ => hg⟩
  case isFalse hc =>
    exact Or.inr ⟨rfl, fun hi hk => absurd ⟨hi, hk⟩ hc⟩

/-- Exhaustive case analysis of one Newton iteration, carrying the frame
facts that every run-level induction below needs: breaks and panics leave
the recorded-norm trace respectively unchanged / extended by the checked
norm, configuration fields are never modified, `NFeval` never decreases,
`NJeval` grows by at most one and stays constant in modified-Newton mode
past the first iteration, and a continuation certifies that its checked
ratio did not exceed `0.99` whenever the check was armed. -/
theorem solveIter_cases (cap : LinSolveCap) (o : NlSolver) (x : Vec) (p : Fr) :
    (∃ r o' x', solveIter cap o x p = IterOut.brk r o' x' ∧ o'.cfg = o.cfg ∧
        o'.trace = o.trace ∧ o'.It = o.It ∧ o.NFeval ≤ o'.NFeval ∧
        o'.NJeval ≤ o.NJeval + 1 ∧ (0 < o.It → o.cteJac = true → o'.NJeval = o.NJeval)) ∨
    (solveIter cap o x p = IterOut.fatal NlsError.nilJacobian o x) ∨
    (∃ o' x' L, solveIter cap o x p = IterOut.fatal (NlsError.diverging (L / p) L p) o' x' ∧
        fr 99 100 < L / p ∧ o'.cfg = o.cfg ∧ o'.trace = o.trace ++ [L] ∧ o'.It = o.It ∧
        o.NFeval ≤ o'.NFeval ∧ o'.NJeval ≤ o.NJeval + 1 ∧
        (0 < o.It → o.cteJac = true → o'.NJeval = o.NJeval)) ∨
    (∃ o' x' L, solveIter cap o x p = IterOut.cont o' x' L ∧ o'.cfg = o.cfg ∧
        o'.trace = o.trace ++ [L] ∧ o'.It = o.It ∧ o.NFeval ≤ o'.NFeval ∧
        o'.NJeval ≤ o.NJeval + 1 ∧ (0 < o.It → o.cteJac = true → o'.NJeval = o.NJeval) ∧
        (0 < o.It → o.chkConv = true → ¬ fr 99 100 < L / p)) := by
  by_cases h0 : largest o.fx (fr 1 1) < o.ftol
  · have hred : solveIter cap o x p = IterOut.brk BreakReason.fxMaxIni o x := by
      simp only [solveIter, if_pos h0]
    exact Or.inl ⟨_, _, _, hred, rfl, rfl, rfl, le_refl _, by omega, fun _ _ => rfl⟩
  · cases hJ : evalJac o x with
    | error e =>
        have he := evalJac_error hJ
        subst he
        have hred : solveIter cap o x p = IterOut.fatal NlsError.nilJacobian o x := by
          simp only [solveIter, if_neg h0, hJ]
        exact Or.inr (Or.inl hred)
    | ok o1 =>
        obtain ⟨hc1, hi1, ht1, _hn1, hf1, hj1, hskip1⟩ := evalJac_ok hJ
        rcases hU : afterUpdate cap o1 x with ⟨o2, x', L⟩
        obtain ⟨hc2, hi2, ht2, hf2, hj2, _hn2, _hL⟩ := afterUpdate_eq hU
        have hcc : o2.cfg = o.cfg := hc2.trans hc1
        have hii : o2.It = o.It := hi2.trans hi1
        have htt : o2.trace = o.trace := ht2.trans ht1
        have hff : o.NFeval ≤ o2.NFeval := by omega
        have hjj : o2.NJeval ≤ o.NJeval + 1 := by omega
        have hsk : 0 < o.It → o.cteJac = true → o2.NJeval = o.NJeval := fun hi hct => by
          rw [hj2, hskip1 hi hct]
        have hred : solveIter cap o x p =
            (if largest o2.fx (fr 1 1) < o2.ftol then IterOut.brk BreakReason.fxMax o2 x'
             else if L < o2.fnewt then IterOut.brk BreakReason.ldx o2 x'
             else if o2.linSearch = true then
               (match lineSearchModel o2.Ffcn o2.x0 o2.mdx o2.dφdx o2.φ o2.linSchMaxIt with
                | (xn, fxn, nfv) => lsBranch o2 xn fxn nfv p)
             else rateCheck o2 x' L p) := by
          simp only [solveIter, if_neg h0, hJ, hU]
        rw [hred]
        by_cases h1 : largest o2.fx (fr 1 1) < o2.ftol
        · rw [if_pos h1]
          exact Or.inl ⟨_, _, _, rfl, hcc, htt, hii, hff, hjj, hsk⟩
        · rw [if_neg h1]
          by_cases h2 : L < o2.fnewt
          · rw [if_pos h2]
            exact Or.inl ⟨_, _, _, rfl, hcc, htt, hii, hff, hjj, hsk⟩
          · rw [if_neg h2]
            by_cases h3 : o2.linSearch = true
            · rw [if_pos h3]
              rcases hLS : lineSearchModel o2.Ffcn o2.x0 o2.mdx o2.dφdx o2.φ o2.linSchMaxIt
                with ⟨xn, fxn, nfv⟩
              have hnfv : 1 ≤ nfv := by
                have hp := lineSearchModel_pos o2.Ffcn o2.x0 o2.mdx o2.dφdx o2.φ o2.linSchMaxIt
                rw [hLS] at hp
                exact hp
              have hred2 : (match (xn, fxn, nfv) with
                  | (xn, fxn, nfv) => lsBranch o2 xn fxn nfv p) = lsBranch o2 xn fxn nfv p := rfl
              rw [hred2]
              unfold lsBranch
              by_cases h4 : ldxNorm { o2 with fx := fxn, NFeval := o2.NFeval + nfv }
                  (List.zipWith Fr.sub xn o2.x0) < o2.fnewt
              · rw [if_pos h4]
                refine Or.inl ⟨_, _, _, rfl, hcc, htt, hii, ?_, hjj, hsk⟩
                show o.NFeval ≤ o2.NFeval + nfv
                omega
              · rw [if_neg h4]
                rcases rateCheck_cases { o2 with fx := fxn, NFeval := o2.NFeval + nfv } xn
                    (ldxNorm { o2 with fx := fxn, NFeval := o2.NFeval + nfv }
                      (List.zipWith Fr.sub xn o2.x0)) p with ⟨hr, hg⟩ | ⟨hr, hg⟩
                · rw [hr]
                  refine Or.inr (Or.inr (Or.inl ⟨_, _, _, rfl, hg, hcc, ?_, hii, ?_, hjj, hsk⟩))
                  · show o2.trace ++ _ = o.trace ++ _
                    rw [htt]
                  · show o.NFeval ≤ o2.NFeval + nfv
                    omega
                · rw [hr]
                  refine Or.inr (Or.inr (Or.inr ⟨_, _, _, rfl, hcc, ?_, hii, ?_, hjj, hsk, ?_⟩))
                  · show o2.trace ++ _ = o.trace ++ _
                    rw [htt]
                  · show o.NFeval ≤ o2.NFeval + nfv
                    omega
                  · intro hi hcv
                    refine hg ?_ ?_
                    · show (0:Int) < o2.It
                      rw [hii]; exact hi
                    · show o2.chkConv = true
                      rw [cfg_chkConv hcc]; exact hcv
            · rw [if_neg h3]
              rcases rateCheck_cases o2 x' L p with ⟨hr, hg⟩ | ⟨hr, hg⟩
              · rw [hr]
                refine Or.inr (Or.inr (Or.inl ⟨_, _, _, rfl, hg, hcc, ?_, hii, hff, hjj, hsk⟩))
                show o2.trace ++ _ = o.trace ++ _
                rw [htt]
              · rw [hr]
                refine Or.inr (Or.inr (Or.inr ⟨_, _, _, rfl, hcc, ?_, hii, hff, hjj, hsk, ?_⟩))
                · show o2.trace ++ _ = o.trace ++ _
                  rw [htt]
                · intro hi hcv
                  refine hg ?_ ?_
                  · show (0:Int) < o2.It
                    rw [hii]; exact hi
                  · show o2.chkConv = true
                    rw [cfg_chkConv hcc]; exact hcv

/-! ### Run-level inductions over the Newton loop -/

/-- If the loop runs out of fuel (no break, no panic), the iteration
counter has advanced by exactly the fuel and the configuration is
untouched. -/
theorem solveLoop_ran (cap : LinSolveCap) :
    ∀ (fuel : Nat) (o : NlSolver) (x : Vec) (p : Fr) (o' : NlSolver) (x' : Vec),
      solveLoop cap fuel o x p = LoopOut.ran o' x' →
      o'.It = o.It + (fuel : Int) ∧ o'.cfg = o.cfg := by
  intro fuel
  induction fuel with
  | zero =>
      intro o x p o' x' h
      have h0 : LoopOut.ran o x = LoopOut.ran o' x' := by
        simpa [solveLoop] using h
      injection h0 with h1 h2
      subst h1
      exact ⟨by simp, rfl⟩
  | succ n ih =>
      intro o x p o' x' h
      rcases solveIter_cases cap o x p with
        ⟨r, oB, xB, heq, _⟩ | heq | ⟨oB, xB, L, heq, _⟩ |
        ⟨oB, xB, L, heq, hcfg, htr, hIt, _⟩
      · rw [show solveLoop cap (n+1) o x p = LoopOut.broke r oB xB by
          simp only [solveLoop, heq]] at h
        cases h
      · rw [show solveLoop cap (n+1) o x p = LoopOut.failed NlsError.nilJacobian o x by
          simp only [solveLoop, heq]] at h
        cases h
      · rw [show solveLoop cap (n+1) o x p =
            LoopOut.failed (NlsError.diverging (L / p) L p) oB xB by
          simp only [solveLoop, heq]] at h
        cases h
      · rw [show solveLoop cap (n+1) o x p =
            solveLoop cap n { oB with It := oB.It + 1 } xB L by
          simp only [solveLoop, heq]] at h
        obtain ⟨hIt', hcfg'⟩ := ih _ _ _ _ _ h
        have hItB : ({ oB with It := oB.It + 1 } : NlSolver).It = oB.It + 1 := rfl
        have hcfgB : ({ oB with It := oB.It + 1 } : NlSolver).cfg = oB.cfg := rfl
        rw [hItB] at hIt'
        rw [hcfgB] at hcfg'
        refine ⟨?_, hcfg'.trans hcfg⟩
        rw [hIt', hIt]
        push_cast
        ring

/-- The loop never modifies the configuration fields and never decreases
`NFeval`, whatever its outcome. -/
theorem solveLoop_pres (cap : LinSolveCap) :
    ∀ (fuel : Nat) (o : NlSolver) (x : Vec) (p : Fr),
      (solveLoop cap fuel o x p).solver.cfg = o.cfg ∧
      o.NFeval ≤ (solveLoop cap fuel o x p).solver.NFeval := by
  intro fuel
  induction fuel with
  | zero =>
      intro o x p
      exact ⟨rfl, le_refl _⟩
  | succ n ih =>
      intro o x p
      rcases solveIter_cases cap o x p with
        ⟨r, oB, xB, heq, hcfg, _, _, hf, _⟩ | heq |
        ⟨oB, xB, L, heq, _, hcfg, _, _, hf, _⟩ |
        ⟨oB, xB, L, heq, hcfg, htr, hIt, hf, _⟩
      · rw [show solveLoop cap (n+1) o x p = LoopOut.broke r oB xB by
          simp only [solveLoop, heq]]
        exact ⟨hcfg, hf⟩
      · rw [show solveLoop cap (n+1) o x p = LoopOut.failed NlsError.nilJacobian o x by
          simp only [solveLoop, heq]]
        exact ⟨rfl, le_refl _⟩
      · rw [show solveLoop cap (n+1) o x p =
            LoopOut.failed (NlsError.diverging (L / p) L p) oB xB by
          simp only [solveLoop, heq]]
        exact ⟨hcfg, hf⟩
      · rw [show solveLoop cap (n+1) o x p =
            solveLoop cap n { oB with It := oB.It + 1 } xB L by
          simp only [solveLoop, heq]]
        obtain ⟨hcfg', hf'⟩ := ih { oB with It := oB.It + 1 } xB L
        have hcfgB : ({ oB with It := oB.It + 1 } : NlSolver).cfg = oB.cfg := rfl
        have hfB : ({ oB with It := oB.It + 1 } : NlSolver).NFeval = oB.NFeval := rfl
        rw [hcfgB] at hcfg'
        rw [hfB] at hf'
        exact ⟨hcfg'.trans hcfg, le_trans hf hf'⟩

/-- In modified-Newton mode the Jacobian-evaluation counter never exceeds
one: it can only grow during the first iteration. -/
theorem solveLoop_nj (cap : LinSolveCap) :
    ∀ (fuel : Nat) (o : NlSolver) (x : Vec) (p : Fr),
      o.cteJac = true →
      ((o.It = 0 ∧ o.NJeval = 0) ∨ (0 < o.It ∧ o.NJeval ≤ 1)) →
      (solveLoop cap fuel o x p).solver.NJeval ≤ 1 := by
  intro fuel
  induction fuel with
  | zero =>
      intro o x p _ hinv
      show o.NJeval ≤ 1
      rcases hinv with ⟨_, h⟩ | ⟨_, h⟩ <;> omega
  | succ n ih =>
      intro o x p hc hinv
      rcases solveIter_cases cap o x p with
        ⟨r, oB, xB, heq, _, _, _, _, hj, hskip⟩ | heq |
        ⟨oB, xB, L, heq, _, _, _, _, _, hj, hskip⟩ |
        ⟨oB, xB, L, heq, hcfg, htr, hIt, _, hj, hskip, _⟩
      · rw [show solveLoop cap (n+1) o x p = LoopOut.broke r oB xB by
          simp only [solveLoop, heq]]
        show oB.NJeval ≤ 1
        rcases hinv with ⟨_, h⟩ | ⟨hp, h⟩
        · omega
        · rw [hskip hp hc]; omega
      · rw [show solveLoop cap (n+1) o x p = LoopOut.failed NlsError.nilJacobian o x by
          simp only [solveLoop, heq]]
        show o.NJeval ≤ 1
        rcases hinv with ⟨_, h⟩ | ⟨_, h⟩ <;> omega
      · rw [show solveLoop cap (n+1) o x p =
            LoopOut.failed (NlsError.diverging (L / p) L p) oB xB by
          simp only [solveLoop, heq]]
        show oB.NJeval ≤ 1
        rcases hinv with ⟨_, h⟩ | ⟨hp, h⟩
        · omega
        · rw [hskip hp hc]; omega
      · rw [show solveLoop cap (n+1) o x p =
            solveLoop cap n { oB with It := oB.It + 1 } xB L by
          simp only [solveLoop, heq]]
        have hcte' : ({ oB with It := oB.It + 1 } : NlSolver).cteJac = true := by
          show oB.cteJac = true
          rw [cfg_cteJac hcfg]; exact hc
        refine ih { oB with It := oB.It + 1 } xB L hcte' (Or.inr ⟨?_, ?_⟩)
        · show 0 < oB.It + 1
          rw [hIt]
          rcases hinv with ⟨h0, _⟩ | ⟨h0, _⟩ <;> omega
        · show oB.NJeval ≤ 1
          rcases hinv with ⟨_, h⟩ | ⟨hp, h⟩
          · omega
          · rw [hskip hp hc]; omega

/-- Appending one norm to the trace adds exactly the pair formed with the
previous last entry to the consecutive-ratio scan. -/
theorem divPairB_concat (t : List Fr) (L : Fr) :
    divPairB (t ++ [L]) =
      (divPairB t || match t.getLast? with
        | some a => decide (fr 99 100 < L / a)
        | none => false) := by
  induction t with
  | nil => simp [divPairB]
  | cons a rest ih =>
      cases rest with
      | nil => simp [divPairB]
      | cons b rest' =>
          have h1 : divPairB ((a :: b :: rest') ++ [L]) =
              (decide (fr 99 100 < b / a) || divPairB ((b :: rest') ++ [L])) := rfl
          have h2 : divPairB (a :: b :: rest') =
              (decide (fr 99 100 < b / a) || divPairB (b :: rest')) := rfl
          have h3 : (a :: b :: rest').getLast? = (b :: rest').getLast? := by
            simp [List.getLast?_cons_cons]
          rw [h1, ih, h2, h3, Bool.or_assoc]

/-- Soundness of the convergence-rate guard, when it is armed: either the
loop ends in the divergence panic (with a correctly reported ratio), or the
trace never contains a consecutive pair of norms with ratio above `0.99`. -/
theorem solveLoop_rate (cap : LinSolveCap) :
    ∀ (fuel : Nat) (o : NlSolver) (x : Vec) (p : Fr),
      o.chkConv = true →
      divPairB o.trace = false →
      ((o.trace = [] ∧ o.It = 0) ∨ (o.trace.getLast? = some p ∧ 0 < o.It)) →
      rateOK (solveLoop cap fuel o x p) := by
  intro fuel
  induction fuel with
  | zero =>
      intro o x p _ hdiv _
      show divPairB o.trace = false
      exact hdiv
  | succ n ih =>
      intro o x p hc hdiv hinv
      rcases solveIter_cases cap o x p with
        ⟨r, oB, xB, heq, _, htr, _, _, _, _⟩ | heq |
        ⟨oB, xB, L, heq, hg, _, _, _, _, _, _⟩ |
        ⟨oB, xB, L, heq, hcfg, htr, hIt, _, _, _, hrate⟩
      · rw [show solveLoop cap (n+1) o x p = LoopOut.broke r oB xB by
          simp only [solveLoop, heq]]
        show divPairB oB.trace = false
        rw [htr]; exact hdiv
      · rw [show solveLoop cap (n+1) o x p = LoopOut.failed NlsError.nilJacobian o x by
          simp only [solveLoop, heq]]
        show divPairB o.trace = false
        exact hdiv
      · rw [show solveLoop cap (n+1) o x p =
            LoopOut.failed (NlsError.diverging (L / p) L p) oB xB by
          simp only [solveLoop, heq]]
        exact ⟨rfl, hg⟩
      · rw [show solveLoop cap (n+1) o x p =
            solveLoop cap n { oB with It := oB.It + 1 } xB L by
          simp only [solveLoop, heq]]
        have hc' : ({ oB with It := oB.It + 1 } : NlSolver).chkConv = true := by
          show oB.chkConv = true
          rw [cfg_chkConv hcfg]; exact hc
        have htr' : ({ oB with It := oB.It + 1 } : NlSolver).trace = o.trace ++ [L] := htr
        have hdiv' : divPairB (o.trace ++ [L]) = false := by
          rw [divPairB_concat, hdiv]
          rcases hinv with ⟨hnil, hIt0⟩ | ⟨hlast, hItp⟩
          · rw [hnil]
            rfl
          · rw [hlast]
            have := hrate hItp hc
            simp [this]
        refine ih { oB with It := oB.It + 1 } xB L hc' (by rw [htr']; exact hdiv')
          (Or.inr ⟨?_, ?_⟩)
        · rw [htr']
          exact List.getLast?_concat _
        · show 0 < oB.It + 1
          rw [hIt]
          rcases hinv with ⟨_, h0⟩ | ⟨_, h0⟩ <;> omega

/-- The final solver object reported by `Solve` is the loop's final solver
object, whatever the outcome. -/
theorem solve_finalSolver (cap : LinSolveCap) (o : NlSolver) (x : Vec) :
    (NlSolver.solve cap o x).finalSolver =
      (solveLoop cap ((solveEntry o x).maxIt).toNat (solveEntry o x) x (fr 0 1)).solver := by
  cases h : solveLoop cap ((solveEntry o x).maxIt).toNat (solveEntry o x) x (fr 0 1) with
  | broke r o' x' =>
      rw [show NlSolver.solve cap o x = SolveResult.ok (some r) o' x' by
        simp only [NlSolver.solve, h]]
      rfl
  | failed e o' x' =>
      rw [show NlSolver.solve cap o x = SolveResult.err e o' x' by
        simp only [NlSolver.solve, h]]
      rfl
  | ran o' x' =>
      by_cases hit : o'.It = o'.maxIt
      · rw [show NlSolver.solve cap o x =
            SolveResult.err (NlsError.noConvergence o'.It) o' x' by
          simp only [NlSolver.solve, h, if_pos hit]]
        rfl
      · rw [show NlSolver.solve cap o x = SolveResult.ok none o' x' by
          simp only [NlSolver.solve, h, if_neg hit]]
        rfl

/-- An option name outside the accepted set makes `readOne` fail. -/
theorem readOne_bad (p : Prms) (k : String) (v : Fr) (hk : k ∉ acceptedKeys) :
    readOne p k v = Except.error ("parameter named " ++ k ++ " is invalid") := by
  simp only [acceptedKeys, List.mem_cons, List.not_mem_nil, or_false, not_or] at hk
  obtain ⟨h1, h2, h3, h4, h5, h6, h7, h8⟩ := hk
  unfold readOne
  rw [if_neg h1, if_neg h2, if_neg h3, if_neg h4, if_neg h5, if_neg h6, if_neg h7, if_neg h8]

/-- If any entry of the parameter list has a name outside the accepted set,
the whole parameter scan fails (whatever the iteration order). -/
theorem readPrms_bad :
    ∀ (prms : List (String × Fr)) (p : Prms) (k : String) (v : Fr),
      (k, v) ∈ prms → k ∉ acceptedKeys → isErrB (readPrms p prms) = true := by
  intro prms
  induction prms with
  | nil =>
      intro p k v hm _
      exact absurd hm (List.not_mem_nil _)
  | cons hd tl ih =>
      intro p k v hm hk
      obtain ⟨k', v'⟩ := hd
      cases hro : readOne p k' v' with
      | error e =>
          rw [show readPrms p ((k', v') :: tl) = Except.error e by
            simp only [readPrms, hro]]
          rfl
      | ok p' =>
          rw [show readPrms p ((k', v') :: tl) = readPrms p' tl by
            simp only [readPrms, hro]]
          rcases List.mem_cons.mp hm with heq | htl
          · injection heq with hk1 hv1
            subst hk1
            rw [readOne_bad p k v' hk] at hro
            cases hro
          · exact ih p' k v htl hk

/-! ### The claims -/

/-- C2: the Newton corrector declares convergence on the increment when the
scaled RMS norm `Ldx = sqrt(mean((Δx_i/scal_i)^2))` (exactly the value the
update stage computed) drops below `fnewt`, and `SetTols` computes `fnewt`
as `max(10·ε/rtol, min(0.03, sqrt(rtol)))` from the configured `rtol` and
the machine epsilon. -/
theorem C2_newton_tolerance (cap : LinSolveCap) (o o1 o2 : NlSolver) (x x' : Vec) (p L : Fr)
    (h0 : ¬ largest o.fx (fr 1 1) < o.ftol)
    (hJ : evalJac o x = Except.ok o1)
    (hU : afterUpdate cap o1 x = (o2, x', L))
    (h1 : ¬ largest o2.fx (fr 1 1) < o2.ftol)
    (h2 : L < o2.fnewt) :
    solveIter cap o x p = IterOut.brk BreakReason.ldx o2 x' ∧
    L = Fr.sqrt (scaledSq o2.scal o2.mdx / fr (o2.neq : Int) 1) ∧
    (∀ (oo : NlSolver) (A R F ϵ : Fr),
      (NlSolver.SetTols oo A R F ϵ).fnewt
        = Fr.max ((fr 10 1) * ϵ / R) (Fr.min (fr 3 100) (Fr.sqrt R))) := by
  refine ⟨?_, (afterUpdate_eq hU).2.2.2.2.2.2, fun oo A R F ϵ => rfl⟩
  simp only [solveIter, if_neg h0, hJ, hU, if_neg h1, if_pos h2]

set_option maxRecDepth 1000000 in
/-- C3 (counterexample): a modified-Newton (`cteJac`) sparse solve that
converges at its second iteration evaluates the Jacobian once but
factorises twice — one factorisation per iteration, not one per solve. -/
theorem C3_counterexample :
    resC3.isOkB = true ∧ (resC3.finalSolver).cteJac = true ∧
    (resC3.finalSolver).It = 1 ∧ (resC3.finalSolver).NJeval = 1 ∧
    (resC3.finalSolver).NFact = 2 := by
  decide

/-- C3 (amended): in modified-Newton mode the Jacobian is evaluated only at
the first iteration (`evalJac` is the identity for `It > 0`, and a whole
solve performs at most one Jacobian evaluation), but the factorisation is
still performed by every iteration's linear stage. -/
theorem C3_modified_newton_amended (cap : LinSolveCap) (o oR : NlSolver) (x y : Vec)
    (hc : o.cteJac = true) (hit : 0 < o.It) :
    evalJac o x = Except.ok o ∧
    (∀ oL, (linStage cap oL).NFact = oL.NFact + 1) ∧
    (oR.cteJac = true → ((NlSolver.solve cap oR y).finalSolver).NJeval ≤ 1) := by
  refine ⟨?_, fun oL => (linStage_eq cap oL).2.2.2.2.2, ?_⟩
  · have hcond : ¬ (o.It = 0 ∨ o.cteJac = false) := by
      rintro (h | h)
      · omega
      · rw [hc] at h; cases h
    simp only [evalJac, if_neg hcond]
  · intro hcR
    rw [solve_finalSolver]
    refine solveLoop_nj cap _ _ _ _ ?_ (Or.inl ⟨rfl, rfl⟩)
    show oR.cteJac = true
    exact hcR

set_option maxRecDepth 1000000 in
theorem C3_modified_newton_amended_witness :
    oA3.cteJac = true ∧ (0:Int) < oA3.It ∧
    evalJac oA3 [] = Except.ok oA3 ∧
    (linStage capHalf oB3).NFact = oB3.NFact + 1 ∧
    ((NlSolver.solve capHalf oB3 [fr 1 1]).finalSolver).NJeval ≤ 1 := by
  have T := C3_modified_newton_amended capHalf oA3 oB3 [] [fr 1 1] (by decide) (by decide)
  exact ⟨by decide, by decide, T.1, T.2.1 oB3, T.2.2 (by decide)⟩

set_option maxRecDepth 1000000 in
/-- C4 (counterexample): with convergence checking left at its default
(`chkConv = false`), a run whose consecutive recorded norms have ratio
`1 > 0.99` does not raise the divergence panic (it ends in the exhaustion
error instead), so `Θ > 0.99` alone does not make the solver fail. -/
theorem C4_counterexample :
    divPairB ((resCex4.finalSolver).trace) = true ∧ resCex4.isDivergedB = false := by
  decide

/-- C4 (amended): when convergence checking is enabled (`chkConv`), any run
whose recorded norms contain a consecutive pair with ratio above `0.99`
ends in the fatal divergence panic, which reports the offending ratio and
the two norms it divides. -/
theorem C4_divergence_amended (cap : LinSolveCap) (o : NlSolver) (x : Vec)
    (hc : o.chkConv = true)
    (hd : divPairB ((NlSolver.solve cap o x).finalSolver).trace = true) :
    (NlSolver.solve cap o x).isDivergedB = true ∧
    divergedPayloadB (NlSolver.solve cap o x) = true := by
  have hrate := solveLoop_rate cap ((solveEntry o x).maxIt).toNat (solveEntry o x) x (fr 0 1)
      (show (solveEntry o x).chkConv = true from hc) rfl (Or.inl ⟨rfl, rfl⟩)
  cases h : solveLoop cap ((solveEntry o x).maxIt).toNat (solveEntry o x) x (fr 0 1) with
  | broke r o' x' =>
      rw [h] at hrate
      have hfs : (NlSolver.solve cap o x).finalSolver = o' := by
        rw [solve_finalSolver, h]
        rfl
      rw [hfs, (show divPairB o'.trace = false from hrate)] at hd
      cases hd
  | failed e o' x' =>
      cases e with
      | diverging θ L q =>
          rw [h] at hrate
          obtain ⟨hθ, hgt⟩ := hrate
          rw [show NlSolver.solve cap o x = SolveResult.err (NlsError.diverging θ L q) o' x' by
            simp only [NlSolver.solve, h]]
          refine ⟨rfl, ?_⟩
          show decide (θ = L / q ∧ fr 99 100 < θ) = true
          exact decide_eq_true ⟨hθ, hgt⟩
      | noConvergence it =>
          rw [h] at hrate
          have hfs : (NlSolver.solve cap o x).finalSolver = o' := by
            rw [solve_finalSolver, h]
            rfl
          rw [hfs, (show divPairB o'.trace = false from hrate)] at hd
          cases hd
      | nilJacobian =>
          rw [h] at hrate
          have hfs : (NlSolver.solve cap o x).finalSolver = o' := by
            rw [solve_finalSolver, h]
            rfl
          rw [hfs, (show divPairB o'.trace = false from hrate)] at hd
          cases hd
  | ran o' x' =>
      rw [h] at hrate
      have hfs : (NlSolver.solve cap o x).finalSolver = o' := by
        rw [solve_finalSolver, h]
        rfl
      rw [hfs, (show divPairB o'.trace = false from hrate)] at hd
      cases hd

set_option maxRecDepth 1000000 in
theorem C4_divergence_amended_witness :
    oW4.chkConv = true ∧
    divPairB ((NlSolver.solve capId oW4 xW4).finalSolver).trace = true ∧
    (NlSolver.solve capId oW4 xW4).isDivergedB = true ∧
    divergedPayloadB (NlSolver.solve capId oW4 xW4) = true := by
  have T := C4_divergence_amended capId oW4 xW4 (by decide) (by decide)
  exact ⟨by decide, by decide, T.1, T.2⟩

/-- C5: any parameter entry whose key is outside the accepted option set
`{cteJac, linSearch, linSchMaxIt, maxIt, chkConv, atol, rtol, ftol}` makes
`NlSolver.Init` fail with a configuration error — unknown options are
never silently ignored. -/
theorem C5_unknown_key_error (neq : Nat) (Ffcn : Vec → Vec) (JfcnSp : Option (Vec → Triplet))
    (JfcnDn : Option (Vec → Mat)) (useDn numJ : Bool) (prms : List (String × Fr))
    (k : String) (v : Fr) (hm : (k, v) ∈ prms) (hk : k ∉ acceptedKeys) :
    isErrB (NlSolver.init neq Ffcn JfcnSp JfcnDn useDn numJ prms) = true := by
  have h := readPrms_bad prms {} k v hm hk
  cases hr : readPrms {} prms with
  | error e =>
      rw [show NlSolver.init neq Ffcn JfcnSp JfcnDn useDn numJ prms = Except.error e by
        simp only [NlSolver.init, hr]]
      rfl
  | ok pp =>
      rw [hr] at h
      cases h

theorem C5_unknown_key_error_witness :
    ("Atol", fr 1 1) ∈ [("Atol", fr 1 1)] ∧ "Atol" ∉ acceptedKeys ∧
    isErrB (NlSolver.init 1 (fun v => v) none none true false [("Atol", fr 1 1)]) = true :=
  ⟨by decide, by decide,
   C5_unknown_key_error 1 (fun v => v) none none true false [("Atol", fr 1 1)] "Atol" (fr 1 1)
     (by decide) (by decide)⟩

/-- C6: completing the configured maximum number of Newton iterations
without any convergence test firing (the loop "ran" out) is fatal: `Solve`
raises the "cannot converge after N iterations" error, with `N` the
configured `maxIt`, instead of returning normally. -/
theorem C6_exhaustion_fatal (cap : LinSolveCap) (o : NlSolver) (x : Vec)
    (o' : NlSolver) (x' : Vec) (hm : 0 ≤ o.maxIt)
    (h : solveLoop cap ((solveEntry o x).maxIt).toNat (solveEntry o x) x (fr 0 1)
        = LoopOut.ran o' x') :
    NlSolver.solve cap o x = SolveResult.err (NlsError.noConvergence o'.It) o' x' ∧
    o'.It = o.maxIt := by
  obtain ⟨hIt, hcfg⟩ := solveLoop_ran cap _ _ _ _ _ _ h
  have hIt0 : (solveEntry o x).It = 0 := rfl
  have hMax : (solveEntry o x).maxIt = o.maxIt := rfl
  rw [hIt0, hMax] at hIt
  have hIt' : o'.It = o.maxIt := by omega
  have hMax' : o'.maxIt = o.maxIt := by
    have h2 := cfg_maxIt hcfg
    rw [hMax] at h2
    exact h2
  refine ⟨?_, hIt'⟩
  rw [show NlSolver.solve cap o x = SolveResult.err (NlsError.noConvergence o'.It) o' x' by
    simp only [NlSolver.solve, h, if_pos (hIt'.trans hMax'.symm)]]

set_option maxRecDepth 1000000 in
theorem C6_exhaustion_fatal_witness :
    (0 ≤ oW6.maxIt) ∧
    NlSolver.solve capId oW6 xW6 = SolveResult.err (NlsError.noConvergence oW6'.It) oW6' xW6' ∧
    oW6'.It = oW6.maxIt := by
  have T := C6_exhaustion_fatal capId oW6 xW6 oW6' xW6' (by decide) rfl
  exact ⟨by decide, T.1, T.2⟩

/-- C7: with the sparse solver and no analytic Jacobian callback
(`JfcnSp = nil`), `Init` switches the numerical-Jacobian flag on; each
numerical Jacobian evaluation builds the one-sided finite-difference
Jacobian from the already-evaluated residual `fx` at the base point and
adds exactly `neq` to `Nfeval` while incrementing `Njeval` by one. -/
theorem C7_numerical_jacobian (neq : Nat) (Ffcn : Vec → Vec) (JfcnDn : Option (Vec → Mat))
    (numJ : Bool) (prms : List (String × Fr)) (o0 o : NlSolver) (x : Vec)
    (hinit : NlSolver.init neq Ffcn none JfcnDn false numJ prms = Except.ok o0)
    (hn : o.numJ = true) (hd : o.useDn = false) (hj : o.It = 0 ∨ o.cteJac = false) :
    o0.numJ = true ∧
    evalJac o x = Except.ok { o with
      Jtri := jacobianFD o.Ffcn x o.fx,
      NFeval := o.NFeval + (o.neq : Int),
      NJeval := o.NJeval + 1 } := by
  constructor
  · cases hr : readPrms {} prms with
    | error e =>
        rw [show NlSolver.init neq Ffcn none JfcnDn false numJ prms = Except.error e by
          simp only [NlSolver.init, hr]] at hinit
        cases hinit
    | ok pp =>
        simp only [NlSolver.init, hr] at hinit
        injection hinit with h
        rw [← h]
        show numJ || true = true
        exact Bool.or_true numJ
  · unfold evalJac
    rw [if_pos hj, hd, hn]
    rw [if_neg (show ¬ (false = true) by decide), if_pos (show true = true from rfl)]

set_option maxRecDepth 1000000 in
theorem C2_newton_tolerance_witness :
    (¬ largest oW2.fx (fr 1 1) < oW2.ftol) ∧ (LW2 < o2W2.fnewt) ∧
    solveIter capId oW2 xW2 (fr 0 1) = IterOut.brk BreakReason.ldx o2W2 xpW2 :=
  ⟨by decide, by decide,
   (C2_newton_tolerance capId oW2 o1W2 o2W2 xW2 xpW2 (fr 0 1) LW2
     (by decide) rfl rfl (by decide) (by decide)).1⟩

set_option maxRecDepth 1000000 in
theorem C7_numerical_jacobian_witness :
    oW7.numJ = true ∧ oW7.useDn = false ∧ (oW7.It = 0 ∨ oW7.cteJac = false) ∧
    evalJac oW7 [fr 1 1] = Except.ok { oW7 with
      Jtri := jacobianFD oW7.Ffcn [fr 1 1] oW7.fx,
      NFeval := oW7.NFeval + (oW7.neq : Int),
      NJeval := oW7.NJeval + 1 } := by
  have T := C7_numerical_jacobian 1 (fun v => v) none false [] oW7 oW7 [fr 1 1] rfl
      (by decide) (by decide) (by decide)
  exact ⟨T.1, by decide, by decide, T.2⟩

/-- C8: the scaling vector is computed exactly once per `Solve` call, as
`scal_i = atol + rtol·|x_i|` from the input `x` at entry, and no Newton
iteration ever modifies it: the final solver state still carries exactly
that vector, whatever happened to `x` during the iterations. -/
theorem C8_scal_once_per_solve (cap : LinSolveCap) (o : NlSolver) (x : Vec) :
    ((NlSolver.solve cap o x).finalSolver).scal
      = x.map (fun xi => o.atol + o.rtol * Fr.abs xi) := by
  rw [solve_finalSolver]
  have h := (solveLoop_pres cap ((solveEntry o x).maxIt).toNat (solveEntry o x) x (fr 0 1)).1
  rw [cfg_scal h]
  rfl

/-- C9: `Solve` converges on the raw residual: whenever the residual
max-norm is below `ftol` at the head of an iteration — in particular
immediately, and again right after each update — the iteration stops.  If
the initial guess already satisfies `max_i |f_i(x)| < ftol`, `Solve`
returns at once with `x` unchanged, `Nfeval = 1` and `Njeval = 0`. -/
theorem C9_residual_convergence (cap : LinSolveCap) (o : NlSolver) (x : Vec)
    (hm : 1 ≤ o.maxIt) (hf : largest (o.Ffcn x) (fr 1 1) < o.ftol) :
    NlSolver.solve cap o x = SolveResult.ok (some BreakReason.fxMaxIni) (solveEntry o x) x ∧
    (solveEntry o x).NFeval = 1 ∧ (solveEntry o x).NJeval = 0 ∧
    (∀ oi xi pi, largest oi.fx (fr 1 1) < oi.ftol →
        solveIter cap oi xi pi = IterOut.brk BreakReason.fxMaxIni oi xi) ∧
    (∀ (oA oB oC : NlSolver) (xA xB : Vec) (pB LB : Fr),
        ¬ largest oA.fx (fr 1 1) < oA.ftol →
        evalJac oA xA = Except.ok oB →
        afterUpdate cap oB xA = (oC, xB, LB) →
        largest oC.fx (fr 1 1) < oC.ftol →
        solveIter cap oA xA pB = IterOut.brk BreakReason.fxMax oC xB) := by
  have hbrk : ∀ oi xi pi, largest oi.fx (fr 1 1) < oi.ftol →
      solveIter cap oi xi pi = IterOut.brk BreakReason.fxMaxIni oi xi := by
    intro oi xi pi hfi
    simp only [solveIter, if_pos hfi]
  refine ⟨?_, rfl, rfl, hbrk, ?_⟩
  · obtain ⟨k, hk⟩ : ∃ k, ((solveEntry o x).maxIt).toNat = k + 1 := by
      refine ⟨((solveEntry o x).maxIt).toNat - 1, ?_⟩
      have hMax : (solveEntry o x).maxIt = o.maxIt := rfl
      rw [hMax]
      omega
    have hfe : largest (solveEntry o x).fx (fr 1 1) < (solveEntry o x).ftol := hf
    have hloop : solveLoop cap ((solveEntry o x).maxIt).toNat (solveEntry o x) x (fr 0 1)
        = LoopOut.broke BreakReason.fxMaxIni (solveEntry o x) x := by
      rw [hk]
      simp only [solveLoop, hbrk (solveEntry o x) x (fr 0 1) hfe]
    simp only [NlSolver.solve, hloop]
  · intro oA oB oC xA xB pB LB h0 hJ hU hcf
    simp only [solveIter, if_neg h0, hJ, hU, if_pos hcf]

set_option maxRecDepth 1000000 in
theorem C9_residual_convergence_witness :
    (1 ≤ oW9.maxIt) ∧ (largest (oW9.Ffcn xW9) (fr 1 1) < oW9.ftol) ∧
    NlSolver.solve capId oW9 xW9
      = SolveResult.ok (some BreakReason.fxMaxIni) (solveEntry oW9 xW9) xW9 := by
  have T := C9_residual_convergence capId oW9 xW9 (by decide) (by decide)
  exact ⟨by decide, by decide, T.1⟩

/-- C10: every call to `Solve` resets the statistics at entry — `Nfeval`
is set to `1` (counting the initial residual evaluation) and `Njeval` to
`0` — so the result is independent of whatever counters the solver object
carried from earlier calls, and after any completed call `Nfeval ≥ 1`. -/
theorem C10_stats_reset (cap : LinSolveCap) (o : NlSolver) (x : Vec) (a b : Int) :
    (solveEntry o x).NFeval = 1 ∧ (solveEntry o x).NJeval = 0 ∧
    NlSolver.solve cap { o with NFeval := a, NJeval := b } x = NlSolver.solve cap o x ∧
    1 ≤ ((NlSolver.solve cap o x).finalSolver).NFeval := by
  refine ⟨rfl, rfl, rfl, ?_⟩
  rw [solve_finalSolver]
  exact (solveLoop_pres cap ((solveEntry o x).maxIt).toNat (solveEntry o x) x (fr 0 1)).2
